import Mathlib

/-!
Shallow embedding of the concurrency-coordination primitives of the
`@pistonite/pure` TypeScript library (`once`, `serial`, `latest`, `batch`,
`debounce`), together with proofs about their call semantics.

Asynchronous JavaScript functions become pure Lean functions returning
`Except` (a thrown value is `Except.error`); promise settlement is recorded
as an explicit per-caller outcome; the event loop of the timer-based
primitives (`debounce`) is modelled as a deterministic queue of timestamped
events processed in (time, insertion) order, mirroring the single-threaded
cooperative scheduling of the source.
-/

universe u v w

/-! ## Once (src/packages/pure/src/sync/once.ts, `OnceImpl`)

The instance state is the cached shared promise: `private promise:
Promise<AwaitRet<TFn>> | undefined`.  `invoke` returns the cached promise when
present; otherwise it creates the shared promise, runs `fn` with the first
caller's arguments, and settles the shared promise with that outcome.  Since
`this.promise` is assigned synchronously before `fn` is awaited, calls are
processed sequentially between suspension points, so a list of calls in
arrival order models any (also concurrent) call pattern. -/

structure OnceSt (ε : Type u) (β : Type v) where
  promise : Option (Except ε β)
  deriving Repr

/-- One call to `OnceImpl.invoke`: returns the updated state, the outcome
delivered to this caller, and whether `fn` was executed by this call. -/
def onceInvoke {α : Type w} {ε : Type u} {β : Type v} (fn : α → Except ε β)
    (st : OnceSt ε β) (a : α) : OnceSt ε β × Except ε β × Bool :=
  match st.promise with
  | some r => (st, r, false)
  | none =>
    let r := fn a
    (⟨some r⟩, r, true)

/-- Process a list of calls in arrival order; returns the per-caller outcomes
and the number of times `fn` was executed. -/
def onceRun {α : Type w} {ε : Type u} {β : Type v} (fn : α → Except ε β)
    (st : OnceSt ε β) : List α → List (Except ε β) × Nat
  | [] => ([], 0)
  | a :: rest =>
    let (st', r, ran) := onceInvoke fn st a
    let (outs, n) := onceRun fn st' rest
    (r :: outs, (if ran then 1 else 0) + n)

/-! ## Serial (src/packages/pure-react/src/pref.ts, `SerialImpl`)

One round of `SerialImpl.invoke` is modelled by the round's serial number
`s` (the value of `++this.serial` at its start), the list of values of
`this.serial` observed at the body's successive `checkCancel()` polls, the
body's own outcome were it to run to completion, and the value of
`this.serial` at the moment control returns to the wrapper (`finalEpoch`).
The body follows the documented protocol: a `checkCancel` throw aborts it. -/

structure SerialRound (ε : Type u) (β : Type v) where
  s : Nat
  polls : List Nat
  bodyOutcome : Except ε β
  finalEpoch : Nat

/-- The epoch starts at `s` for this round and only ever increases, so every
observation lies between `s` and the epoch at the end of the round. -/
def SerialRound.WF {ε : Type u} {β : Type v} (r : SerialRound ε β) : Prop :=
  r.s ≤ r.finalEpoch ∧ ∀ p ∈ r.polls, r.s ≤ p ∧ p ≤ r.finalEpoch

instance {ε : Type u} {β : Type v} (r : SerialRound ε β) : Decidable r.WF := by
  unfold SerialRound.WF; infer_instance

/-- Outcome delivered to the caller of one Serial round: `{ val: result }`,
`{ err: "cancel" }`, a rethrown body exception, or the probe's own
`Error("cancelled")` escaping (the last is shown unreachable). -/
inductive SerialResult (ε : Type u) (β : Type v) where
  | val (v : β)
  | cancelErr
  | thrown (e : ε)
  | thrownProbe
  deriving Repr, DecidableEq

/-- The `checkCancel` closure: given `currentSerial`, the observed
`this.serial` and the `cancelled` flag, returns the new flag, the `onCancel`
invocation it performs (if any), and whether it throws. -/
def serialCheckCancel (s epoch : Nat) (cancelled : Bool) :
    Bool × Option (Nat × Nat) × Bool :=
  if epoch ≠ s then
    if cancelled then (cancelled, none, true)
    else (true, some (s, epoch), true)
  else (cancelled, none, false)

/-- Run the body's polls in order, aborting at the first throwing poll.
Returns the `cancelled` flag, the accumulated `onCancel` invocations, and
the epoch at which the probe threw (or `none` if the body ran to its end). -/
def serialRunPolls (s : Nat) :
    List Nat → Bool → List (Nat × Nat) → Bool × List (Nat × Nat) × Option Nat
  | [], c, acc => (c, acc, none)
  | p :: rest, c, acc =>
    let (c', fired, thrown) := serialCheckCancel s p c
    let acc' := acc ++ fired.toList
    if thrown then (c', acc', some p) else serialRunPolls s rest c' acc'

/-- One round of `SerialImpl.invoke`: run the body (polls, then its own
outcome), do the wrapper's final `checkCancel`, and translate throws through
the `catch` clause, which returns `{ err: "cancel" }` exactly when
`currentSerial !== this.serial` at catch time.  Also returns every
`onCancel` invocation made during the round. -/
def serialInvoke {ε : Type u} {β : Type v} (r : SerialRound ε β) :
    SerialResult ε β × List (Nat × Nat) :=
  let (c, acc, aborted) := serialRunPolls r.s r.polls false []
  match aborted with
  | some p =>
    -- the probe threw inside the body at epoch p; catch runs at epoch p
    if p ≠ r.s then (.cancelErr, acc) else (.thrownProbe, acc)
  | none =>
    match r.bodyOutcome with
    | .error e =>
      -- the body threw its own exception; catch runs at epoch finalEpoch
      if r.finalEpoch ≠ r.s then (.cancelErr, acc) else (.thrown e, acc)
    | .ok v =>
      -- wrapper's final checkCancel, at epoch finalEpoch
      let (_, fired, thrown) := serialCheckCancel r.s r.finalEpoch c
      let acc' := acc ++ fired.toList
      if thrown then
        if r.finalEpoch ≠ r.s then (.cancelErr, acc') else (.thrownProbe, acc')
      else (.val v, acc')

/-! ## Latest (src/packages/pure/src/sync/latest.ts, `LatestImpl`)

Instance fields: `pending` (the shared promise of the busy period),
`currentArgs`, `nextArgs`, `middleArgs` (initialised to `[]` in the
constructor), the `areArgsEqual` predicate (default `() => false`) and the
`updateArgs` function (default `(_current, _middle, latest) => latest`).
A busy period starts with the first call's arguments and is driven by a
schedule: the list, per round of the `while (this.nextArgs)` loop, of the
arguments of the calls that arrive during that round's `await`.  `truthy`
models the JavaScript truthiness of a thrown value, used by `if (error)`. -/

structure LatestCfg (α : Type w) (ε : Type u) (β : Type v) where
  fn : α → Except ε β
  areArgsEqual : α → α → Bool
  updateArgsF : α → List α → α → Option α → α
  truthy : ε → Bool

structure LatestSt (α : Type w) where
  currentArgs : Option α
  nextArgs : Option α
  middleArgs : List α
  deriving Repr

/-- A call to `LatestImpl.invoke` that finds `this.pending` set: it computes
`updateArgs(currentArgs, middleArgs, args, nextArgs)`, either cancels or
replaces `nextArgs` according to `areArgsEqual`, and returns the shared
promise.  Also records the middle argument passed to `updateArgs`. -/
def latestQueuedCall {α : Type w} {ε : Type u} {β : Type v}
    (cfg : LatestCfg α ε β) (st : LatestSt α) (args : α) :
    LatestSt α × List (List α) :=
  match st.currentArgs with
  | none => (st, [])
  | some c =>
    let nextArgs := cfg.updateArgsF c st.middleArgs args st.nextArgs
    if cfg.areArgsEqual nextArgs c then
      ({ st with nextArgs := none }, [st.middleArgs])
    else
      ({ st with nextArgs := some nextArgs }, [st.middleArgs])

/-- The calls of one round arrive one after the other (single-threaded). -/
def latestArrivals {α : Type w} {ε : Type u} {β : Type v}
    (cfg : LatestCfg α ε β) (calls : List α) (acc : LatestSt α × List (List α)) :
    LatestSt α × List (List α) :=
  match calls with
  | [] => acc
  | args :: rest =>
    let (st', m) := latestQueuedCall cfg acc.1 args
    latestArrivals cfg rest (st', acc.2 ++ m)

/-- One iteration of the `while (this.nextArgs)` loop: set `currentArgs` to
the dequeued arguments, clear `nextArgs`, let the scheduled calls of this
round arrive during the `await`, then record the round's outcome into the
loop-scoped `error` and `result` variables (`catch (e) { error = e; }`
only sets `error`; a success only sets `result`). -/
def latestRound {α : Type w} {ε : Type u} {β : Type v}
    (cfg : LatestCfg α ε β) (st : LatestSt α) (a : α) (callsDuring : List α)
    (error : Option ε) (result : Option β) :
    LatestSt α × Option ε × Option β × List (List α) :=
  let st0 : LatestSt α := { st with currentArgs := some a, nextArgs := none }
  let folded := latestArrivals cfg callsDuring (st0, [])
  match cfg.fn a with
  | .ok v => (folded.1, error, some v, folded.2)
  | .error e => (folded.1, some e, result, folded.2)

/-- The `while (this.nextArgs)` loop, driven by the round schedule.  Once the
schedule is exhausted no new call arrives, so the round after it runs with no
queued calls and the loop exits.  Returns the final state, the `error` and
`result` variables, the recorded middle arguments, and the list of arguments
`fn` was executed with (one per round, in order). -/
def latestLoop {α : Type w} {ε : Type u} {β : Type v}
    (cfg : LatestCfg α ε β) (st : LatestSt α) (sched : List (List α))
    (error : Option ε) (result : Option β)
    (mids : List (List α)) (fnCalls : List α) :
    LatestSt α × Option ε × Option β × List (List α) × List α :=
  match st.nextArgs with
  | none => (st, error, result, mids, fnCalls)
  | some a =>
    match sched with
    | [] =>
      let (st', e', r', m') := latestRound cfg st a [] error result
      (st', e', r', mids ++ m', fnCalls ++ [a])
    | calls :: rest =>
      let (st', e', r', m') := latestRound cfg st a calls error result
      latestLoop cfg st' rest e' r' (mids ++ m') (fnCalls ++ [a])

/-- Outcome of the shared `pending` promise of a busy period: `resolved`
carries the `result` variable (which is `undefined` when no round ever
succeeded), `rejected` carries the `error` variable. -/
inductive PendingOutcome (ε : Type u) (β : Type v) where
  | resolvedP (v : Option β)
  | rejectedP (e : ε)
  deriving Repr, DecidableEq

/-- The epilogue of `LatestImpl.invoke`: `if (error) { pending.reject(error);
throw error; } else { pending.resolve(result); return result; }`. -/
def latestFinish {α : Type w} {ε : Type u} {β : Type v}
    (cfg : LatestCfg α ε β) (error : Option ε) (result : Option β) :
    PendingOutcome ε β :=
  match error with
  | some e => if cfg.truthy e then .rejectedP e else .resolvedP result
  | none => .resolvedP result

/-- A whole busy period of `LatestImpl.invoke`: the first call arrives on an
idle instance with arguments `a`, later calls arrive per the schedule.
Returns the outcome shared by every caller of the period, the arguments of
each execution of `fn`, and the middle argument of each `updateArgs` call. -/
def latestInvokeFirst {α : Type w} {ε : Type u} {β : Type v}
    (cfg : LatestCfg α ε β) (a : α) (sched : List (List α)) :
    PendingOutcome ε β × List α × List (List α) :=
  let st0 : LatestSt α := { currentArgs := none, nextArgs := some a, middleArgs := [] }
  let (_, e, r, mids, fnCalls) := latestLoop cfg st0 sched none none [] []
  (latestFinish cfg e r, fnCalls, mids)

/-! ## Batch (src/packages/pure/src/pref/index.ts source part, `BatchImpl`)

`scheduleNext` grabs the queued call records, merges their inputs with the
user's `batch` function when there are at least two (note: that call sits
*outside* the `try` block), runs `fn` via `execute`, and settles every queued
record: with `unbatch` and more than one input each caller `i` gets
`outputs[i]` (JavaScript yields `undefined` past the end, hence `Option`),
otherwise all get the shared output; any exception inside the `try` rejects
them all.  User functions that may throw are modelled with `Except`. -/

/-- Settlement of one queued caller's promise: resolved (possibly with
`undefined`), rejected, or never settled at all. -/
inductive COutcome (ε : Type u) (β : Type v) where
  | resolved (v : Option β)
  | rejected (e : ε)
  | abandoned
  deriving Repr, DecidableEq

structure BatchCfg (α : Type w) (ε : Type u) (β : Type v) where
  fn : α → Except ε β
  batchF : List α → Except ε α
  unbatchF : Option (List α → β → Except ε (List β))

/-- `BatchImpl.scheduleNext` on the queued records (their inputs, in arrival
order).  Returns the settlement of each queued caller, the number of calls to
`batch`, and the list of inputs `fn` was executed with. -/
def batchScheduleNext {α : Type w} {ε : Type u} {β : Type v}
    (cfg : BatchCfg α ε β) (next : List α) :
    List (COutcome ε β) × Nat × List α :=
  match next with
  | [] => ([], 0, [])
  | a :: rest =>
    let inputs := a :: rest
    let merged : Except ε α × Nat :=
      if inputs.length > 1 then (cfg.batchF inputs, 1) else (Except.ok a, 0)
    match merged.1 with
    | .error _ =>
      (inputs.map (fun _ => COutcome.abandoned), merged.2, [])
    | .ok input =>
      match cfg.fn input with
      | .error e => (inputs.map (fun _ => COutcome.rejected e), merged.2, [input])
      | .ok output =>
        match cfg.unbatchF with
        | some ub =>
          if inputs.length > 1 then
            match ub inputs output with
            | .error e => (inputs.map (fun _ => COutcome.rejected e), merged.2, [input])
            | .ok outs =>
              ((List.range inputs.length).map (fun i => COutcome.resolved outs[i]?),
                merged.2, [input])
          else (inputs.map (fun _ => COutcome.resolved (some output)), merged.2, [input])
        | none => (inputs.map (fun _ => COutcome.resolved (some output)), merged.2, [input])

/-! ## Debounce (src/packages/pure/src/sync/debounce.ts, `Debounce`)

The instance owns `idle` and `next` (queued arguments plus a shared promise
handle; a newer queued call only replaces `next.args`).  `execute` closes
over a `done` flag initialised to `disregardExecutionTime`, schedules a
timer `interval` from the execution's start, and awaits `fn`; the timer
callback and the `finally` block each call `scheduleNext()` when `done` is
already set and otherwise set `done`.  `scheduleNext` starts the queued
execution, or returns to idle.

The single-threaded event loop is modelled as a queue of timestamped
events — external `invoke`s plus the `timer` and `complete`(-of-`fn`)
events of each execution — processed in lexicographic (time, insertion
sequence) order.  `fn` is opaque: only its duration matters here, given by
`dur`.  `setTimeout` clamps negative delays to zero, hence `Int.toNat`. -/

structure DebCfg (α : Type w) where
  interval : Int
  disregard : Bool
  dur : α → Nat

/-- The effective timer delay: `setTimeout` clamps negative values to 0. -/
def DebCfg.delay {α : Type w} (c : DebCfg α) : Nat := c.interval.toNat

inductive DEv (α : Type w) where
  | invoke (a : α)
  | timer (eid : Nat)
  | complete (eid : Nat)
  deriving Repr, DecidableEq

/-- A pending event: its due time, an insertion sequence number used to
break ties deterministically, and the event itself. -/
structure PEv (α : Type w) where
  time : Nat
  seq : Nat
  ev : DEv α
  deriving Repr, DecidableEq

/-- One execution of `fn`: its identifier, arguments, start time, and the
`done` flag closed over by `execute`. -/
structure ExecSt (α : Type w) where
  eid : Nat
  args : α
  start : Nat
  done : Bool
  deriving Repr, DecidableEq

structure DState (α : Type w) where
  idle : Bool
  next : Option α
  execs : List (ExecSt α)
  fresh : Nat
  seqc : Nat
  pending : List (PEv α)
  now : Nat
  deriving Repr

/-- Event order: earlier due time first, insertion order among equals. -/
def evLe {α : Type w} (x y : PEv α) : Bool :=
  decide (x.time < y.time ∨ (x.time = y.time ∧ x.seq ≤ y.seq))

/-- Remove and return a minimal pending event (in `evLe` order), keeping the
relative order of the remaining events. -/
def pickMin {α : Type w} : List (PEv α) → Option (PEv α × List (PEv α))
  | [] => none
  | e :: rest =>
    match pickMin rest with
    | none => some (e, rest)
    | some (m, others) =>
      if evLe e m then some (e, rest) else some (m, e :: others)

def pushEv {α : Type w} (t : Nat) (ev : DEv α) (s : DState α) : DState α :=
  { s with pending := s.pending ++ [⟨t, s.seqc, ev⟩], seqc := s.seqc + 1 }

/-- Read the `done` flag of the execution closure identified by `eid`. -/
def getDone {α : Type w} (s : DState α) (eid : Nat) : Bool :=
  match s.execs.find? (fun e => e.eid == eid) with
  | some e => e.done
  | none => false

def setDone {α : Type w} (eid : Nat) (s : DState α) : DState α :=
  { s with execs :=
      s.execs.map (fun e => if e.eid = eid then { e with done := true } else e) }

/-- `Debounce.execute(...args)` entered at time `t`: record the execution
(its `done` flag starts as `disregardExecutionTime`), schedule its timer at
`t + interval` and its `fn`-completion at `t + dur args`. -/
def startExec {α : Type w} (cfg : DebCfg α) (t : Nat) (a : α) (s : DState α) :
    DState α :=
  let e : ExecSt α := ⟨s.fresh, a, t, cfg.disregard⟩
  let s1 := { s with execs := s.execs ++ [e], fresh := s.fresh + 1 }
  let s2 := pushEv (t + cfg.delay) (.timer e.eid) s1
  pushEv (t + cfg.dur a) (.complete e.eid) s2

/-- `Debounce.scheduleNext()`: start the queued execution, else go idle. -/
def debScheduleNext {α : Type w} (cfg : DebCfg α) (t : Nat) (s : DState α) :
    DState α :=
  match s.next with
  | some a => startExec cfg t a { s with next := none }
  | none => { s with idle := true }

/-- Dispatch one event: `invoke` is `Debounce.invoke` (execute when idle,
else queue, a newer call replacing the queued arguments); `timer` is the
`setTimeout` callback; `complete` is the `finally` block after `fn`. -/
def handleEv {α : Type w} (cfg : DebCfg α) (t : Nat) (ev : DEv α)
    (s : DState α) : DState α :=
  match ev with
  | .invoke a =>
    if s.idle then startExec cfg t a { s with idle := false }
    else { s with next := some a }
  | .timer eid =>
    if getDone s eid then debScheduleNext cfg t s else setDone eid s
  | .complete eid =>
    if cfg.disregard then s
    else if getDone s eid then debScheduleNext cfg t s else setDone eid s

/-- Process the earliest pending event, if any. -/
def stepD {α : Type w} (cfg : DebCfg α) (s : DState α) : Option (DState α) :=
  match pickMin s.pending with
  | none => none
  | some (e, rest) =>
    some (handleEv cfg e.time e.ev { s with pending := rest, now := e.time })

def runD {α : Type w} (cfg : DebCfg α) : Nat → DState α → DState α
  | 0, s => s
  | fuel + 1, s =>
    match stepD cfg s with
    | none => s
    | some s' => runD cfg fuel s'

/-- Initial state for a fresh `Debounce` instance together with the external
calls (time, arguments), given in arrival order. -/
def initD {α : Type w} (invokes : List (Nat × α)) : DState α :=
  { idle := true, next := none, execs := [], fresh := 0,
    seqc := invokes.length, now := 0,
    pending := invokes.enum.map (fun p => ⟨p.2.1, p.1, DEv.invoke p.2.2⟩) }

/-- Execution `e2` starts no earlier than `e1`'s timer expiry and no earlier
than `e1`'s completion. -/
def execLe {α : Type w} (cfg : DebCfg α) (e1 e2 : ExecSt α) : Prop :=
  e1.start + cfg.delay ≤ e2.start ∧ e1.start + cfg.dur e1.args ≤ e2.start

instance {α : Type w} (cfg : DebCfg α) (e1 e2 : ExecSt α) :
    Decidable (execLe cfg e1 e2) := by
  unfold execLe; infer_instance

def eidLt {α : Type w} (e1 e2 : ExecSt α) : Prop := e1.eid < e2.eid

def isInternal {α : Type w} : DEv α → Bool
  | .invoke _ => false
  | .timer _ => true
  | .complete _ => true

/-- The outstanding timer/completion events of a pending-event list. -/
def internalsL {α : Type w} (l : List (PEv α)) : List (PEv α) :=
  l.filter (fun p => isInternal p.ev)

def internals {α : Type w} (s : DState α) : List (PEv α) := internalsL s.pending

/-- State invariant of the Debounce event loop when `disregard = false`. -/
structure DInv {α : Type w} (cfg : DebCfg α) (s : DState α) : Prop where
  times : ∀ p ∈ s.pending, s.now ≤ p.time
  eids : List.Chain' eidLt s.execs
  freshB : ∀ e ∈ s.execs, e.eid < s.fresh
  chain : List.Chain' (execLe cfg) s.execs
  starts : ∀ e ∈ s.execs, e.start ≤ s.now
  mode :
    (s.idle = true ∧ s.next = none ∧ internals s = [] ∧
      ∀ e ∈ s.execs.getLast?,
        e.start + cfg.delay ≤ s.now ∧ e.start + cfg.dur e.args ≤ s.now) ∨
    (s.idle = false ∧ ∃ e, s.execs.getLast? = some e ∧
      ((e.done = false ∧ ∃ q1 q2,
          internals s = [⟨e.start + cfg.delay, q1, DEv.timer e.eid⟩,
                         ⟨e.start + cfg.dur e.args, q2, DEv.complete e.eid⟩]) ∨
       (e.done = true ∧ ∃ q,
          (internals s = [⟨e.start + cfg.delay, q, DEv.timer e.eid⟩] ∧
             e.start + cfg.dur e.args ≤ s.now) ∨
          (internals s = [⟨e.start + cfg.dur e.args, q, DEv.complete e.eid⟩] ∧
             e.start + cfg.delay ≤ s.now))))

/-! ## Concrete instances used in the theorems below -/

/-- Latest instance whose first round throws 7 and whose second round
returns 9, with the default `areArgsEqual` and `updateArgs`. -/
def lat1Cfg : LatestCfg Nat Nat Nat :=
  { fn := fun a => if a = 1 then .error 7 else .ok 9,
    areArgsEqual := fun _ _ => false,
    updateArgsF := fun _ _ latest _ => latest,
    truthy := fun _ => true }

/-- Batch instance whose user `batch` function throws. -/
def batchThrowCfg : BatchCfg Nat Nat Nat :=
  { fn := fun a => .ok (a * 2), batchF := fun _ => .error 3, unbatchF := none }

/-- Batch instance summing the queued inputs, without `unbatch`. -/
def batchSumCfg : BatchCfg Nat Nat Nat :=
  { fn := fun a => .ok (a * 2), batchF := fun xs => .ok xs.sum, unbatchF := none }

/-- Batch instance summing the queued inputs, with an `unbatch` that gives
every caller an equal share of the output. -/
def batchUnbCfg : BatchCfg Nat Nat Nat :=
  { fn := fun a => .ok (a * 2),
    batchF := fun xs => .ok xs.sum,
    unbatchF := some (fun xs out => .ok (xs.map (fun _ => out / xs.length))) }

/-- Debounce with `interval = 0` (the `interval ≤ 0` edge case), default
`disregardExecutionTime`, and a wrapped function taking 10 time units. -/
def debC5 : DebCfg Nat := { interval := 0, disregard := false, dur := fun _ => 10 }

/-- Debounce in the default configuration with a positive interval. -/
def debC6 : DebCfg Nat := { interval := 5, disregard := false, dur := fun _ => 3 }

/-- A Serial round superseded during execution (epoch 1 → 2) whose body
throws its own exception without ever having polled `checkCancel`. -/
def serC4 : SerialRound Nat Nat :=
  { s := 1, polls := [], bodyOutcome := .error 5, finalEpoch := 2 }

/-- A Serial round that polls twice, is superseded at the second poll, and
would have returned 42. -/
def serOk : SerialRound Nat Nat :=
  { s := 1, polls := [1, 2], bodyOutcome := .ok 42, finalEpoch := 2 }

/-- A Serial round that completes normally after the epoch advanced. -/
def serOk2 : SerialRound Nat Nat :=
  { s := 2, polls := [2], bodyOutcome := .ok 7, finalEpoch := 3 }

lemma onceRun_cached {α : Type w} {ε : Type u} {β : Type v}
    (fn : α → Except ε β) (r : Except ε β) (calls : List α) :
    onceRun fn ⟨some r⟩ calls = (List.replicate calls.length r, 0) := by
  induction calls with
  | nil => rfl
  | cons a rest ih => simp [onceRun, onceInvoke, ih, List.replicate_succ]

/-- Claim C8: Once executes `fn` only on the first call and with the first
caller's arguments; every caller (the first and all later ones) receives
that same outcome, be it a success or a permanently cached failure, and
`fn` is never re-invoked. -/
theorem once_single_flight {α : Type w} {ε : Type u} {β : Type v}
    (fn : α → Except ε β) (a : α) (rest : List α) :
    onceRun fn ⟨none⟩ (a :: rest) =
      (fn a :: List.replicate rest.length (fn a), 1) := by
  simp [onceRun, onceInvoke, onceRun_cached]

lemma serialRunPolls_all_ok (s : Nat) (polls : List Nat) (c : Bool)
    (acc : List (Nat × Nat)) :
    (∀ p ∈ polls, p = s) → serialRunPolls s polls c acc = (c, acc, none) := by
  induction polls with
  | nil => intro _; rfl
  | cons q rest ih =>
    intro h
    have hq : q = s := h q (List.mem_cons_self q rest)
    have hr : ∀ p ∈ rest, p = s := fun p hp => h p (List.mem_cons_of_mem q hp)
    subst hq
    simpa [serialRunPolls, serialCheckCancel] using ih hr

lemma serialRunPolls_first_bad (s : Nat) (polls : List Nat) :
    ∀ acc : List (Nat × Nat), (¬ ∀ p ∈ polls, p = s) →
    ∃ p, p ∈ polls ∧ p ≠ s ∧
      serialRunPolls s polls false acc = (true, acc ++ [(s, p)], some p) := by
  induction polls with
  | nil => intro acc h; exact absurd (by simp) h
  | cons q rest ih =>
    intro acc h
    by_cases hq : q = s
    · subst hq
      have hr : ¬ ∀ p ∈ rest, p = q := by
        intro hall
        refine h ?_
        intro p hp
        rcases List.mem_cons.1 hp with h1 | h2
        · exact h1
        · exact hall p h2
      obtain ⟨p, hmem, hne, heq⟩ := ih acc hr
      refine ⟨p, List.mem_cons_of_mem _ hmem, hne, ?_⟩
      simpa [serialRunPolls, serialCheckCancel] using heq
    · refine ⟨q, List.mem_cons_self _ _, hq, ?_⟩
      simp [serialRunPolls, serialCheckCancel, hq]

/-- Claim C3: a Serial caller receives `{ err: "cancel" }` if and only if
the epoch advanced past the round's serial number during its execution;
when it did not advance, a successful body yields `{ val: result }` and a
body exception propagates to the caller. -/
theorem serial_cancellation_outcome {ε : Type u} {β : Type v}
    (r : SerialRound ε β) (hwf : r.WF) :
    ((serialInvoke r).1 = SerialResult.cancelErr ↔ r.finalEpoch ≠ r.s) ∧
    (r.finalEpoch = r.s →
      (serialInvoke r).1 =
        match r.bodyOutcome with
        | .ok v => SerialResult.val v
        | .error e => SerialResult.thrown e) := by
  obtain ⟨hfe, hpolls⟩ := hwf
  by_cases hall : ∀ p ∈ r.polls, p = r.s
  · have hrun := serialRunPolls_all_ok r.s r.polls false [] hall
    by_cases hne : r.finalEpoch = r.s
    · cases hb : r.bodyOutcome with
      | error e =>
        exact ⟨by simp [serialInvoke, hrun, hb, hne],
               fun _ => by simp [serialInvoke, hrun, hb, hne]⟩
      | ok v =>
        exact ⟨by simp [serialInvoke, hrun, hb, serialCheckCancel, hne],
               fun _ => by simp [serialInvoke, hrun, hb, serialCheckCancel, hne]⟩
    · cases hb : r.bodyOutcome with
      | error e =>
        exact ⟨by simp [serialInvoke, hrun, hb, hne],
               fun h => absurd h hne⟩
      | ok v =>
        exact ⟨by simp [serialInvoke, hrun, hb, serialCheckCancel, hne],
               fun h => absurd h hne⟩
  · obtain ⟨p, hmem, hne, heq⟩ := serialRunPolls_first_bad r.s r.polls [] hall
    have hp := hpolls p hmem
    have hfs : r.finalEpoch ≠ r.s := by omega
    refine ⟨?_, fun h => absurd h hfs⟩
    simp [serialInvoke, heq, if_pos hne]
    exact hfs

/-- Claim C3 witness: the theorem instantiated at a concrete well-formed
round that polls and is superseded at its second poll. -/
theorem serial_cancellation_outcome_witness :
    serOk.WF ∧
    (((serialInvoke serOk).1 = SerialResult.cancelErr ↔
        serOk.finalEpoch ≠ serOk.s) ∧
      (serOk.finalEpoch = serOk.s →
        (serialInvoke serOk).1 =
          match serOk.bodyOutcome with
          | .ok v => SerialResult.val v
          | .error e => SerialResult.thrown e)) :=
  ⟨by decide, serial_cancellation_outcome serOk (by decide)⟩

/-- Claim C4 counterexample: a well-formed round that is superseded during
its execution (epoch 1 advanced to 2) but whose body throws its own
exception without ever polling `checkCancel`: the caller still receives the
cancellation outcome, yet `onCancel` fires zero times — not exactly once. -/
theorem serial_onCancel_zero_fires :
    serC4.WF ∧ serC4.finalEpoch ≠ serC4.s ∧
      serialInvoke serC4 = (SerialResult.cancelErr, []) :=
  ⟨by decide, by decide, by decide⟩

/-- Claim C4 (amended): per round, `onCancel` fires at most once, always
with the round's own serial as first argument and the strictly larger
current epoch as second; for a superseded round it fires exactly once
whenever the body completes normally or some poll observes the
supersession, but not when the body throws before any such poll. -/
theorem serial_onCancel_at_most_once {ε : Type u} {β : Type v}
    (r : SerialRound ε β) (hwf : r.WF) :
    (serialInvoke r).2.length ≤ 1 ∧
    (∀ pr ∈ (serialInvoke r).2, pr.1 = r.s ∧ r.s < pr.2) ∧
    ((r.finalEpoch ≠ r.s ∧
        ((∃ v, r.bodyOutcome = Except.ok v) ∨ ∃ p ∈ r.polls, p ≠ r.s)) →
      (serialInvoke r).2.length = 1) := by
  obtain ⟨hfe, hpolls⟩ := hwf
  by_cases hall : ∀ p ∈ r.polls, p = r.s
  · have hrun := serialRunPolls_all_ok r.s r.polls false [] hall
    cases hb : r.bodyOutcome with
    | error e =>
      have hsnd : (serialInvoke r).2 = [] := by
        simp only [serialInvoke, hrun, hb]
        split <;> rfl
      refine ⟨by simp [hsnd], by simp [hsnd], ?_⟩
      rintro ⟨_, ⟨v, hv⟩ | ⟨p, hp, hpne⟩⟩
      · simp at hv
      · exact absurd (hall p hp) hpne
    | ok v =>
      by_cases hne : r.finalEpoch = r.s
      · have hsnd : (serialInvoke r).2 = [] := by
          simp [serialInvoke, hrun, hb, serialCheckCancel, hne]
        refine ⟨by simp [hsnd], by simp [hsnd], ?_⟩
        rintro ⟨hfs, _⟩
        exact absurd hne hfs
      · have hsnd : (serialInvoke r).2 = [(r.s, r.finalEpoch)] := by
          simp [serialInvoke, hrun, hb, serialCheckCancel, hne]
        refine ⟨by simp [hsnd], ?_, fun _ => by simp [hsnd]⟩
        intro pr hpr
        rw [hsnd] at hpr
        rcases List.mem_singleton.1 hpr with rfl
        exact ⟨rfl, by omega⟩
  · obtain ⟨p, hmem, hne, heq⟩ := serialRunPolls_first_bad r.s r.polls [] hall
    have hp := hpolls p hmem
    have hsnd : (serialInvoke r).2 = [(r.s, p)] := by
      simp [serialInvoke, heq, hne]
    refine ⟨by simp [hsnd], ?_, fun _ => by simp [hsnd]⟩
    intro pr hpr
    rw [hsnd] at hpr
    rcases List.mem_singleton.1 hpr with rfl
    exact ⟨rfl, by omega⟩

/-- Claim C4 (amended) witness: the amended theorem instantiated at a
concrete superseded round that completes normally, where `onCancel` fires
exactly once. -/
theorem serial_onCancel_at_most_once_witness :
    serOk2.WF ∧ (serialInvoke serOk2).2.length ≤ 1 ∧
      (serialInvoke serOk2).2.length = 1 :=
  ⟨by decide, (serial_onCancel_at_most_once serOk2 (by decide)).1,
    (serial_onCancel_at_most_once serOk2 (by decide)).2.2
      ⟨by decide, Or.inl ⟨7, rfl⟩⟩⟩

lemma latestQueuedCall_mid {α : Type w} {ε : Type u} {β : Type v}
    (cfg : LatestCfg α ε β) (st : LatestSt α) (args : α)
    (h : st.middleArgs = []) :
    ((latestQueuedCall cfg st args).1).middleArgs = [] ∧
    ∀ m ∈ (latestQueuedCall cfg st args).2, m = [] := by
  rcases hst : st.currentArgs with _ | c
  · simp [latestQueuedCall, hst, h]
  · simp only [latestQueuedCall, hst]
    constructor
    · split <;> simp [h]
    · split <;> simp [h]

lemma latestArrivals_mid {α : Type w} {ε : Type u} {β : Type v}
    (cfg : LatestCfg α ε β) (calls : List α) :
    ∀ acc : LatestSt α × List (List α),
    acc.1.middleArgs = [] → (∀ m ∈ acc.2, m = []) →
    (latestArrivals cfg calls acc).1.middleArgs = [] ∧
    ∀ m ∈ (latestArrivals cfg calls acc).2, m = [] := by
  induction calls with
  | nil => intro acc h1 h2; exact ⟨h1, h2⟩
  | cons args rest ih =>
    intro acc h1 h2
    have hq := latestQueuedCall_mid cfg acc.1 args h1
    rcases hlq : latestQueuedCall cfg acc.1 args with ⟨st', m⟩
    rw [hlq] at hq
    simp only [latestArrivals, hlq]
    refine ih (st', acc.2 ++ m) hq.1 ?_
    intro x hx
    rcases List.mem_append.1 hx with hx1 | hx2
    · exact h2 x hx1
    · exact hq.2 x hx2

lemma latestRound_mid {α : Type w} {ε : Type u} {β : Type v}
    (cfg : LatestCfg α ε β) (st : LatestSt α) (a : α) (calls : List α)
    (error : Option ε) (result : Option β) (h : st.middleArgs = []) :
    (latestRound cfg st a calls error result).1.middleArgs = [] ∧
    ∀ m ∈ (latestRound cfg st a calls error result).2.2.2, m = [] := by
  have hfold := latestArrivals_mid cfg calls
    ({ st with currentArgs := some a, nextArgs := none }, []) h (by simp)
  unfold latestRound
  rcases hres : cfg.fn a with e | v <;> simp [hres] <;> exact hfold

lemma latestLoop_mid {α : Type w} {ε : Type u} {β : Type v}
    (cfg : LatestCfg α ε β) (sched : List (List α)) :
    ∀ (st : LatestSt α) (error : Option ε) (result : Option β)
      (mids : List (List α)) (fnCalls : List α),
    st.middleArgs = [] → (∀ m ∈ mids, m = []) →
    ∀ m ∈ (latestLoop cfg st sched error result mids fnCalls).2.2.2.1, m = [] := by
  induction sched with
  | nil =>
    intro st error result mids fnCalls h1 h2
    unfold latestLoop
    rcases hst : st.nextArgs with _ | a
    · exact h2
    · have hr := latestRound_mid cfg st a [] error result h1
      rcases hro : latestRound cfg st a [] error result with ⟨st', e', r', m'⟩
      rw [hro] at hr
      simp only [hro]
      intro m hm
      rcases List.mem_append.1 hm with hm1 | hm2
      · exact h2 m hm1
      · exact hr.2 m hm2
  | cons calls rest ih =>
    intro st error result mids fnCalls h1 h2
    unfold latestLoop
    rcases hst : st.nextArgs with _ | a
    · exact h2
    · have hr := latestRound_mid cfg st a calls error result h1
      rcases hro : latestRound cfg st a calls error result with ⟨st', e', r', m'⟩
      rw [hro] at hr
      simp only [hro]
      refine ih st' e' r' (mids ++ m') (fnCalls ++ [a]) hr.1 ?_
      intro m hm
      rcases List.mem_append.1 hm with hm1 | hm2
      · exact h2 m hm1
      · exact hr.2 m hm2

/-- Claim C10: `middleArgs` is initialised empty and never appended to, so
the middle argument handed to every `updateArgs` call of any busy period is
the empty list, whatever the configuration and call schedule. -/
theorem latest_updateArgs_middle_empty {α : Type w} {ε : Type u} {β : Type v}
    (cfg : LatestCfg α ε β) (a : α) (sched : List (List α)) :
    ((latestInvokeFirst cfg a sched).2.2).all List.isEmpty = true := by
  have hmid := latestLoop_mid cfg sched ⟨none, some a, []⟩ none none [] [] rfl
    (by simp)
  rcases hloop : latestLoop cfg ⟨none, some a, []⟩ sched none none [] [] with
    ⟨st', e', r', mids', fn'⟩
  rw [hloop] at hmid
  rw [List.all_eq_true]
  intro m hm
  have hmm : m ∈ mids' := by
    simpa [latestInvokeFirst, hloop] using hm
  have : m = [] := hmid m hmm
  simp [this]

/-- Claim C1 evaluated at the failing input: with the default `areArgsEqual`
and `updateArgs`, a busy period whose first round throws 7 and whose second
(final) round returns 9 runs `fn` exactly twice, yet rejects every caller
with the stale error 7 instead of resolving with the final round's value. -/
theorem latest_stale_error_overrides_final_round :
    latestInvokeFirst lat1Cfg 1 [[2]] =
      (PendingOutcome.rejectedP 7, [1, 2], [[]]) ∧
    lat1Cfg.fn 2 = Except.ok 9 ∧
    (latestInvokeFirst lat1Cfg 1 [[2]]).1 ≠ PendingOutcome.resolvedP (some 9) :=
  ⟨by decide, rfl, by decide⟩

/-- Claim C2 evaluated at the failing input: with two calls queued and a
user `batch` function that throws, `scheduleNext` calls `batch` outside its
`try`/`catch`, the exception escapes, and both queued callers are abandoned
— neither resolved nor rejected — contradicting the exactly-once
settlement invariant. -/
theorem batch_throw_abandons_callers :
    batchScheduleNext batchThrowCfg [1, 2] =
      ([COutcome.abandoned, COutcome.abandoned], 1, []) := by decide

/-- Claim C9: at the trailing edge, a single queued call runs with its own
arguments and `batch` is not consulted; with two or more queued calls,
`batch` merges the inputs, `fn` runs exactly once on the merged input, a
failure rejects every queued caller identically, and a success is either
shared by all callers or, when `unbatch` is supplied, distributed
positionally. -/
theorem batch_trailing_round {α : Type w} {ε : Type u} {β : Type v}
    (cfg : BatchCfg α ε β) (next : List α) :
    (∀ a, next = [a] →
      batchScheduleNext cfg next =
        ((match cfg.fn a with
          | .ok v => [COutcome.resolved (some v)]
          | .error e => [COutcome.rejected e]), 0, [a])) ∧
    (∀ m, 2 ≤ next.length → cfg.batchF next = .ok m →
      (batchScheduleNext cfg next).2.2 = [m] ∧
      (∀ e, cfg.fn m = .error e →
        (batchScheduleNext cfg next).1 = next.map fun _ => COutcome.rejected e) ∧
      (∀ out, cfg.fn m = .ok out →
        (cfg.unbatchF = none →
          (batchScheduleNext cfg next).1 =
            next.map fun _ => COutcome.resolved (some out)) ∧
        (∀ ub outs, cfg.unbatchF = some ub → ub next out = .ok outs →
          (batchScheduleNext cfg next).1 =
            (List.range next.length).map fun i => COutcome.resolved outs[i]?))) := by
  constructor
  · rintro a rfl
    rcases hfn : cfg.fn a with e | v <;>
      rcases hub : cfg.unbatchF with _ | ub <;>
      simp [batchScheduleNext, hfn, hub]
  · intro m hlen hm
    obtain ⟨a, t, rfl⟩ : ∃ a t, next = a :: t := by
      cases next with
      | nil => simp at hlen
      | cons a t => exact ⟨a, t, rfl⟩
    obtain ⟨b, rest, rfl⟩ : ∃ b r2, t = b :: r2 := by
      cases t with
      | nil => simp at hlen
      | cons b r2 => exact ⟨b, r2, rfl⟩
    have hgt : (a :: b :: rest).length > 1 := by simp
    refine ⟨?_, ?_, ?_⟩
    · rcases hfn : cfg.fn m with e | v
      · simp [batchScheduleNext, hgt, hm, hfn]
      · rcases hub : cfg.unbatchF with _ | ub
        · simp [batchScheduleNext, hgt, hm, hfn, hub]
        · rcases hu : ub (a :: b :: rest) v with e2 | outs <;>
            simp [batchScheduleNext, hgt, hm, hfn, hub, hu]
    · intro e hfn
      simp [batchScheduleNext, hgt, hm, hfn]
    · intro out hfn
      constructor
      · intro hub
        simp [batchScheduleNext, hgt, hm, hfn, hub]
      · intro ub outs hub hu
        simp [batchScheduleNext, hgt, hm, hfn, hub, hu]

/-- Claim C9 witness: the theorem applied at a single queued call (no
batching) and at two queued calls both without and with `unbatch`. -/
theorem batch_trailing_round_witness :
    batchScheduleNext batchSumCfg [5] =
      ([COutcome.resolved (some 10)], 0, [5]) ∧
    (batchScheduleNext batchSumCfg [1, 2]).1 =
      [COutcome.resolved (some 6), COutcome.resolved (some 6)] ∧
    (batchScheduleNext batchUnbCfg [1, 2]).1 =
      [COutcome.resolved (some 3), COutcome.resolved (some 3)] := by
  refine ⟨(batch_trailing_round batchSumCfg [5]).1 5 rfl, ?_, ?_⟩
  · have h := (((batch_trailing_round batchSumCfg [1, 2]).2 3 (by decide)
      rfl).2.2 6 rfl).1 rfl
    rw [h]
    rfl
  · have h := (((batch_trailing_round batchUnbCfg [1, 2]).2 3 (by decide)
      rfl).2.2 6 rfl).2 _ [3, 3] rfl rfl
    rw [h]
    rfl

lemma evLe_true_time {α : Type w} {x y : PEv α} (h : evLe x y = true) :
    x.time ≤ y.time := by
  unfold evLe at h
  rcases of_decide_eq_true h with h1 | ⟨h2, _⟩ <;> omega

lemma evLe_false_time {α : Type w} {x y : PEv α} (h : evLe x y = false) :
    y.time ≤ x.time := by
  unfold evLe at h
  have h2 := of_decide_eq_false h
  omega

lemma pickMin_cons_ne_none {α : Type w} (a : PEv α) (tail : List (PEv α)) :
    pickMin (a :: tail) ≠ none := by
  rcases h : pickMin tail with _ | ⟨m, others⟩
  · simp [pickMin, h]
  · simp only [pickMin, h]
    split <;> simp

lemma pickMin_split {α : Type w} {l : List (PEv α)} {e : PEv α}
    {rest : List (PEv α)} (h : pickMin l = some (e, rest)) :
    ∃ l1 l2, l = l1 ++ e :: l2 ∧ rest = l1 ++ l2 := by
  induction l generalizing e rest with
  | nil => simp [pickMin] at h
  | cons a tail ih =>
    rcases htail : pickMin tail with _ | ⟨m, others⟩
    · simp only [pickMin, htail] at h
      obtain ⟨rfl, rfl⟩ := Prod.mk.injEq .. ▸ Option.some.inj h
      exact ⟨[], tail, rfl, rfl⟩
    · simp only [pickMin, htail] at h
      by_cases hle : evLe a m = true
      · rw [if_pos hle] at h
        obtain ⟨rfl, rfl⟩ := Prod.mk.injEq .. ▸ Option.some.inj h
        exact ⟨[], tail, rfl, rfl⟩
      · rw [if_neg hle] at h
        obtain ⟨rfl, rfl⟩ := Prod.mk.injEq .. ▸ Option.some.inj h
        obtain ⟨t1, t2, htl, hot⟩ := ih htail
        exact ⟨a :: t1, t2, by simp [htl], by simp [hot]⟩

lemma pickMin_time_min {α : Type w} {l : List (PEv α)} {e : PEv α}
    {rest : List (PEv α)} (h : pickMin l = some (e, rest)) :
    ∀ p ∈ l, e.time ≤ p.time := by
  induction l generalizing e rest with
  | nil => simp [pickMin] at h
  | cons a tail ih =>
    rcases htail : pickMin tail with _ | ⟨m, others⟩
    · have htl : tail = [] := by
        cases tail with
        | nil => rfl
        | cons b tb => exact absurd htail (pickMin_cons_ne_none b tb)
      simp only [pickMin, htail] at h
      obtain ⟨rfl, rfl⟩ := Prod.mk.injEq .. ▸ Option.some.inj h
      subst htl
      intro p hp
      rcases List.mem_singleton.1 hp with rfl
      exact le_refl _
    · have ihm := ih htail
      simp only [pickMin, htail] at h
      by_cases hle : evLe a m = true
      · rw [if_pos hle] at h
        obtain ⟨rfl, rfl⟩ := Prod.mk.injEq .. ▸ Option.some.inj h
        intro p hp
        rcases List.mem_cons.1 hp with rfl | hp2
        · exact le_refl _
        · exact le_trans (evLe_true_time hle) (ihm p hp2)
      · rw [if_neg hle] at h
        obtain ⟨rfl, rfl⟩ := Prod.mk.injEq .. ▸ Option.some.inj h
        intro p hp
        rcases List.mem_cons.1 hp with rfl | hp2
        · exact evLe_false_time (Bool.eq_false_iff.2 (fun hc => hle hc))
        · exact ihm p hp2

lemma internalsL_append {α : Type w} (l1 l2 : List (PEv α)) :
    internalsL (l1 ++ l2) = internalsL l1 ++ internalsL l2 := by
  simp [internalsL]

lemma internalsL_middle_external {α : Type w} (l1 l2 : List (PEv α))
    (p : PEv α) (h : isInternal p.ev = false) :
    internalsL (l1 ++ p :: l2) = internalsL (l1 ++ l2) := by
  simp [internalsL, List.filter_append, List.filter_cons, h]

lemma internalsL_middle_internal {α : Type w} (l1 l2 : List (PEv α))
    (p : PEv α) (h : isInternal p.ev = true) :
    internalsL (l1 ++ p :: l2) = internalsL l1 ++ p :: internalsL l2 := by
  simp [internalsL, List.filter_append, List.filter_cons, h]

lemma append_cons_eq_singleton {γ : Type u} {A B : List γ} {e x : γ}
    (h : A ++ e :: B = [x]) : A = [] ∧ e = x ∧ B = [] := by
  cases A with
  | nil =>
    simp only [List.nil_append, List.cons.injEq] at h
    exact ⟨rfl, h.1, h.2⟩
  | cons a t => simp at h

lemma append_cons_eq_pair {γ : Type u} {A B : List γ} {e x y : γ}
    (h : A ++ e :: B = [x, y]) :
    (A = [] ∧ e = x ∧ B = [y]) ∨ (A = [x] ∧ e = y ∧ B = []) := by
  cases A with
  | nil =>
    simp only [List.nil_append, List.cons.injEq] at h
    exact Or.inl ⟨rfl, h.1, h.2⟩
  | cons a t =>
    cases t with
    | nil =>
      simp only [List.cons_append, List.nil_append, List.cons.injEq] at h
      exact Or.inr ⟨by simp [h.1], h.2.1, h.2.2⟩
    | cons b t2 => simp at h

lemma eidLt_trans {α : Type w} : Transitive (eidLt (α := α)) :=
  fun _ _ _ hxy hyz => Nat.lt_trans hxy hyz

lemma mem_of_getLast?_eq {γ : Type u} {l : List γ} {x : γ}
    (h : l.getLast? = some x) : x ∈ l := by
  obtain ⟨hne, heq⟩ := List.mem_getLast?_eq_getLast (Option.mem_def.2 h)
  exact heq ▸ List.getLast_mem hne

lemma last_eid_max {α : Type w} {l : List (ExecSt α)} {e : ExecSt α}
    (hinc : List.Chain' eidLt l) (hlast : l.getLast? = some e) :
    ∀ x ∈ l.dropLast, x.eid < e.eid := by
  intro x hx
  have hl : l.dropLast ++ [e] = l := List.dropLast_append_getLast? e
    (Option.mem_def.2 hlast)
  have hpw : List.Pairwise eidLt l := by
    haveI : IsTrans (ExecSt α) eidLt := ⟨fun a b c hab hbc => eidLt_trans hab hbc⟩
    exact List.chain'_iff_pairwise.1 hinc
  rw [← hl] at hpw
  exact (List.pairwise_append.1 hpw).2.2 x hx e (List.mem_singleton.2 rfl)

lemma find_append_last {α : Type w} (init : List (ExecSt α)) (e : ExecSt α)
    (hmax : ∀ x ∈ init, x.eid < e.eid) :
    (init ++ [e]).find? (fun x => x.eid == e.eid) = some e := by
  induction init with
  | nil => simp
  | cons a t ih =>
    rw [List.cons_append, List.find?_cons_of_neg]
    · exact ih (fun x hx => hmax x (List.mem_cons_of_mem a hx))
    · have := hmax a (List.mem_cons_self a t)
      simp only [beq_iff_eq]
      omega

lemma find_last_eid {α : Type w} {l : List (ExecSt α)} {e : ExecSt α}
    (hinc : List.Chain' eidLt l) (hlast : l.getLast? = some e) :
    l.find? (fun x => x.eid == e.eid) = some e := by
  have hl : l.dropLast ++ [e] = l := List.dropLast_append_getLast? e
    (Option.mem_def.2 hlast)
  conv_lhs => rw [← hl]
  exact find_append_last _ _ (last_eid_max hinc hlast)

lemma setDone_append_last {α : Type w} (init : List (ExecSt α)) (e : ExecSt α)
    (hmax : ∀ x ∈ init, x.eid < e.eid) :
    (init ++ [e]).map
        (fun x => if x.eid = e.eid then { x with done := true } else x) =
      init ++ [{ e with done := true }] := by
  induction init with
  | nil => simp
  | cons a t ih =>
    have ha := hmax a (List.mem_cons_self a t)
    simp only [List.cons_append, List.map_cons]
    rw [if_neg (by omega), ih (fun x hx => hmax x (List.mem_cons_of_mem a hx))]

lemma setDone_last_execs {α : Type w} {l : List (ExecSt α)} {e : ExecSt α}
    (hinc : List.Chain' eidLt l) (hlast : l.getLast? = some e) :
    l.map (fun x => if x.eid = e.eid then { x with done := true } else x) =
      l.dropLast ++ [{ e with done := true }] := by
  have hl : l.dropLast ++ [e] = l := List.dropLast_append_getLast? e
    (Option.mem_def.2 hlast)
  conv_lhs => rw [← hl]
  exact setDone_append_last _ _ (last_eid_max hinc hlast)

lemma getLast?_concat_eq {γ : Type u} (l : List γ) (a : γ) :
    (l ++ [a]).getLast? = some a := by
  rw [List.getLast?_append_cons]
  rfl

lemma getDone_last {α : Type w} {s : DState α} {e : ExecSt α}
    (hinc : List.Chain' eidLt s.execs) (hlast : s.execs.getLast? = some e) :
    getDone s e.eid = e.done := by
  unfold getDone
  rw [find_last_eid hinc hlast]

lemma startExec_DInv {α : Type w} (cfg : DebCfg α) (hd : cfg.disregard = false)
    (s0 : DState α) (t : Nat) (a : α)
    (h_now : s0.now = t)
    (h_times : ∀ p ∈ s0.pending, t ≤ p.time)
    (h_eids : List.Chain' eidLt s0.execs)
    (h_fresh : ∀ e ∈ s0.execs, e.eid < s0.fresh)
    (h_chain : List.Chain' (execLe cfg) s0.execs)
    (h_starts : ∀ e ∈ s0.execs, e.start ≤ t)
    (h_idle : s0.idle = false)
    (h_int : internals s0 = [])
    (h_last : ∀ e' ∈ s0.execs.getLast?,
      e'.start + cfg.delay ≤ t ∧ e'.start + cfg.dur e'.args ≤ t) :
    DInv cfg (startExec cfg t a s0) := by
  have hpend : (startExec cfg t a s0).pending =
      (s0.pending ++ [⟨t + cfg.delay, s0.seqc, DEv.timer s0.fresh⟩]) ++
        [⟨t + cfg.dur a, s0.seqc + 1, DEv.complete s0.fresh⟩] := by
    simp [startExec, pushEv]
  have hexecs : (startExec cfg t a s0).execs =
      s0.execs ++ [⟨s0.fresh, a, t, cfg.disregard⟩] := by
    simp [startExec, pushEv]
  have hnow : (startExec cfg t a s0).now = t := by
    simp [startExec, pushEv, h_now]
  have hfreshv : (startExec cfg t a s0).fresh = s0.fresh + 1 := by
    simp [startExec, pushEv]
  have hidle : (startExec cfg t a s0).idle = false := by
    simp [startExec, pushEv, h_idle]
  constructor
  · -- times
    intro p hp
    rw [hpend] at hp
    rw [hnow]
    rcases List.mem_append.1 hp with hp1 | hp2
    · rcases List.mem_append.1 hp1 with hp3 | hp4
      · exact h_times p hp3
      · rcases List.mem_singleton.1 hp4 with rfl
        exact Nat.le_add_right _ _
    · rcases List.mem_singleton.1 hp2 with rfl
      exact Nat.le_add_right _ _
  · -- eids
    rw [hexecs]
    rw [List.chain'_append]
    refine ⟨h_eids, List.chain'_singleton _, ?_⟩
    intro x hx y hy
    have hxl : x ∈ s0.execs := mem_of_getLast?_eq (Option.mem_def.1 hx)
    simp only [List.head?_cons, Option.mem_def, Option.some.injEq] at hy
    subst hy
    exact h_fresh x hxl
  · -- freshB
    intro e he
    rw [hexecs] at he
    rw [hfreshv]
    rcases List.mem_append.1 he with he1 | he2
    · exact Nat.lt_succ_of_lt (h_fresh e he1)
    · rcases List.mem_singleton.1 he2 with rfl
      exact Nat.lt_succ_self _
  · -- chain
    rw [hexecs]
    rw [List.chain'_append]
    refine ⟨h_chain, List.chain'_singleton _, ?_⟩
    intro x hx y hy
    have hxl := h_last x hx
    simp only [List.head?_cons, Option.mem_def, Option.some.injEq] at hy
    subst hy
    exact ⟨hxl.1, hxl.2⟩
  · -- starts
    intro e he
    rw [hexecs] at he
    rw [hnow]
    rcases List.mem_append.1 he with he1 | he2
    · exact h_starts e he1
    · rcases List.mem_singleton.1 he2 with rfl
      exact le_refl _
  · -- mode
    right
    refine ⟨hidle, ⟨s0.fresh, a, t, cfg.disregard⟩, ?_, ?_⟩
    · rw [hexecs]
      exact getLast?_concat_eq _ _
    · left
      refine ⟨hd, s0.seqc, s0.seqc + 1, ?_⟩
      show internalsL (startExec cfg t a s0).pending = _
      rw [hpend, internalsL_append, internalsL_append]
      have h0 : internalsL s0.pending = [] := h_int
      rw [h0]
      simp [internalsL, isInternal]

lemma chain'_concat_iff {γ : Type u} {R : γ → γ → Prop} {init : List γ}
    {x : γ} :
    List.Chain' R (init ++ [x]) ↔
      List.Chain' R init ∧ ∀ z ∈ init.getLast?, R z x := by
  rw [List.chain'_append]
  simp

lemma debScheduleNext_DInv {α : Type w} (cfg : DebCfg α)
    (hd : cfg.disregard = false) (s0 : DState α) (t : Nat) (ex : ExecSt α)
    (h_now : s0.now = t)
    (h_times : ∀ p ∈ s0.pending, t ≤ p.time)
    (h_eids : List.Chain' eidLt s0.execs)
    (h_fresh : ∀ x ∈ s0.execs, x.eid < s0.fresh)
    (h_chain : List.Chain' (execLe cfg) s0.execs)
    (h_starts : ∀ x ∈ s0.execs, x.start ≤ t)
    (h_idle : s0.idle = false)
    (h_int : internals s0 = [])
    (h_last : s0.execs.getLast? = some ex)
    (h_del : ex.start + cfg.delay ≤ t)
    (h_dur : ex.start + cfg.dur ex.args ≤ t) :
    DInv cfg (debScheduleNext cfg t s0) := by
  unfold debScheduleNext
  rcases hnext : s0.next with _ | a
  · constructor
    · exact fun p hp => h_now ▸ h_times p hp
    · exact h_eids
    · exact h_fresh
    · exact h_chain
    · exact fun x hx => h_now ▸ h_starts x hx
    · left
      refine ⟨rfl, rfl, h_int, ?_⟩
      intro x hx
      rw [h_last] at hx
      obtain rfl : ex = x := Option.some.inj (Option.mem_def.1 hx)
      exact ⟨h_now ▸ h_del, h_now ▸ h_dur⟩
  · exact startExec_DInv cfg hd _ t a h_now h_times h_eids h_fresh h_chain
      h_starts h_idle h_int
      (by
        intro x hx
        rw [h_last] at hx
        obtain rfl : ex = x := Option.some.inj (Option.mem_def.1 hx)
        exact ⟨h_del, h_dur⟩)

lemma setDone_DInv {α : Type w} (cfg : DebCfg α) (s0 : DState α)
    (ex : ExecSt α) (t : Nat)
    (h_now : s0.now = t)
    (h_times : ∀ p ∈ s0.pending, t ≤ p.time)
    (h_eids : List.Chain' eidLt s0.execs)
    (h_fresh : ∀ x ∈ s0.execs, x.eid < s0.fresh)
    (h_chain : List.Chain' (execLe cfg) s0.execs)
    (h_starts : ∀ x ∈ s0.execs, x.start ≤ t)
    (h_idle : s0.idle = false)
    (h_lastex : s0.execs.getLast? = some ex)
    (hrem :
      (∃ q, internalsL s0.pending =
          [⟨ex.start + cfg.delay, q, DEv.timer ex.eid⟩] ∧
        ex.start + cfg.dur ex.args ≤ t) ∨
      (∃ q, internalsL s0.pending =
          [⟨ex.start + cfg.dur ex.args, q, DEv.complete ex.eid⟩] ∧
        ex.start + cfg.delay ≤ t)) :
    DInv cfg (setDone ex.eid s0) := by
  have hdl : s0.execs.dropLast ++ [ex] = s0.execs :=
    List.dropLast_append_getLast? ex (Option.mem_def.2 h_lastex)
  have hexecs : (setDone ex.eid s0).execs =
      s0.execs.dropLast ++ [{ ex with done := true }] :=
    setDone_last_execs h_eids h_lastex
  have hmem_ex : ex ∈ s0.execs := mem_of_getLast?_eq h_lastex
  have hmem_dl : ∀ x ∈ s0.execs.dropLast, x ∈ s0.execs := by
    intro x hx
    rw [← hdl]
    exact List.mem_append_left _ hx
  constructor
  · exact fun p hp => h_now ▸ h_times p hp
  · rw [hexecs]
    rw [← hdl] at h_eids
    rw [chain'_concat_iff] at h_eids ⊢
    exact ⟨h_eids.1, fun z hz => h_eids.2 z hz⟩
  · intro x hx
    rw [hexecs] at hx
    rcases List.mem_append.1 hx with hx1 | hx2
    · exact h_fresh x (hmem_dl x hx1)
    · rcases List.mem_singleton.1 hx2 with rfl
      exact h_fresh ex hmem_ex
  · rw [hexecs]
    rw [← hdl] at h_chain
    rw [chain'_concat_iff] at h_chain ⊢
    exact ⟨h_chain.1, fun z hz => h_chain.2 z hz⟩
  · intro x hx
    rw [hexecs] at hx
    rcases List.mem_append.1 hx with hx1 | hx2
    · exact h_now ▸ h_starts x (hmem_dl x hx1)
    · rcases List.mem_singleton.1 hx2 with rfl
      exact h_now ▸ h_starts ex hmem_ex
  · right
    refine ⟨h_idle, { ex with done := true }, ?_, ?_⟩
    · rw [hexecs]
      exact getLast?_concat_eq _ _
    · right
      rcases hrem with ⟨q, hint, hle⟩ | ⟨q, hint, hle⟩
      · exact ⟨rfl, q, Or.inl ⟨hint, h_now ▸ hle⟩⟩
      · exact ⟨rfl, q, Or.inr ⟨hint, h_now ▸ hle⟩⟩

lemma DInv_step {α : Type w} (cfg : DebCfg α) (hd : cfg.disregard = false)
    {s s' : DState α} (hinv : DInv cfg s) (hstep : stepD cfg s = some s') :
    DInv cfg s' := by
  unfold stepD at hstep
  rcases hpick : pickMin s.pending with _ | ⟨e, rest⟩
  · rw [hpick] at hstep; cases hstep
  · rw [hpick] at hstep
    have hs' : s' = handleEv cfg e.time e.ev { s with pending := rest, now := e.time } :=
      (Option.some.inj hstep).symm
    subst hs'
    obtain ⟨l1, l2, hl, hrest⟩ := pickMin_split hpick
    have hmin := pickMin_time_min hpick
    have hemem : e ∈ s.pending := by
      rw [hl]; exact List.mem_append_right _ (List.mem_cons_self _ _)
    have hnow_le : s.now ≤ e.time := hinv.times e hemem
    have hrest_times : ∀ p ∈ rest, e.time ≤ p.time := by
      intro p hp
      apply hmin
      rw [hl]
      rw [hrest] at hp
      rcases List.mem_append.1 hp with hp1 | hp2
      · exact List.mem_append_left _ hp1
      · exact List.mem_append_right _ (List.mem_cons_of_mem _ hp2)
    have hIr : internalsL rest = internalsL l1 ++ internalsL l2 := by
      rw [hrest, internalsL_append]
    have hB_starts : ∀ x ∈ s.execs, x.start ≤ e.time :=
      fun x hx => le_trans (hinv.starts x hx) hnow_le
    rcases hev : e.ev with a | eid | eid
    · -- external invoke
      have hext : isInternal e.ev = false := by rw [hev]; rfl
      have hIsr : internals s = internalsL rest := by
        show internalsL s.pending = _
        rw [hl, hrest]
        exact internalsL_middle_external l1 l2 e hext
      simp only [handleEv]
      rcases hinv.mode with ⟨hidleT, hnextN, hintE, hclosed⟩ |
        ⟨hidleF, ex, hlastex, hcases⟩
      · rw [if_pos hidleT]
        refine startExec_DInv cfg hd _ e.time a rfl hrest_times hinv.eids
          hinv.freshB hinv.chain hB_starts rfl ?_ ?_
        · show internalsL rest = []
          rw [← hIsr]
          exact hintE
        · intro x hx
          have hc := hclosed x hx
          exact ⟨le_trans hc.1 hnow_le, le_trans hc.2 hnow_le⟩
      · rw [if_neg (by rw [hidleF]; simp)]
        constructor
        · exact hrest_times
        · exact hinv.eids
        · exact hinv.freshB
        · exact hinv.chain
        · exact hB_starts
        · right
          refine ⟨hidleF, ex, hlastex, ?_⟩
          rcases hcases with ⟨hdone, q1, q2, hint⟩ | ⟨hdone, q, hsub⟩
          · exact Or.inl ⟨hdone, q1, q2, hIsr.symm.trans hint⟩
          · refine Or.inr ⟨hdone, q, ?_⟩
            rcases hsub with ⟨hint, hle⟩ | ⟨hint, hle⟩
            · exact Or.inl ⟨hIsr.symm.trans hint, le_trans hle hnow_le⟩
            · exact Or.inr ⟨hIsr.symm.trans hint, le_trans hle hnow_le⟩
    · -- timer event
      have hintl : isInternal e.ev = true := by rw [hev]; rfl
      have hIs : internals s = internalsL l1 ++ e :: internalsL l2 := by
        show internalsL s.pending = _
        rw [hl]
        exact internalsL_middle_internal l1 l2 e hintl
      rcases hinv.mode with ⟨_, _, hintE, _⟩ | ⟨hidleF, ex, hlastex, hcases⟩
      · rw [hintE] at hIs
        simp at hIs
      · rcases hcases with ⟨hdone, q1, q2, hint⟩ | ⟨hdone, q, hsub⟩
        · -- B1: both events outstanding; the timer is the first of the pair
          have hsplit := append_cons_eq_pair (hIs.symm.trans hint)
          rcases hsplit with ⟨h1, he, h2⟩ | ⟨h1, he, h2⟩
          · have heid : eid = ex.eid := by
              have hev2 := congrArg PEv.ev he
              rw [hev] at hev2
              exact DEv.timer.inj hev2
            have htime : e.time = ex.start + cfg.delay := congrArg PEv.time he
            have hgd : getDone { s with pending := rest, now := e.time } ex.eid =
                ex.done := getDone_last hinv.eids hlastex
            simp only [handleEv]
            rw [heid, hgd, hdone, if_neg (by simp)]
            refine setDone_DInv cfg _ ex e.time rfl hrest_times hinv.eids
              hinv.freshB hinv.chain hB_starts hidleF hlastex ?_
            right
            refine ⟨q2, ?_, htime ▸ le_refl _⟩
            show internalsL rest = _
            rw [hIr, h1, h2]
            rfl
          · exfalso
            have hev2 := congrArg PEv.ev he
            rw [hev] at hev2
            cases hev2
        · -- B2: one event outstanding
          rcases hsub with ⟨hint, hledur⟩ | ⟨hint, hledel⟩
          · -- the remaining event is the timer: fire it, schedule the next
            have hsing := append_cons_eq_singleton (hIs.symm.trans hint)
            obtain ⟨h1, he, h2⟩ := hsing
            have heid : eid = ex.eid := by
              have hev2 := congrArg PEv.ev he
              rw [hev] at hev2
              exact DEv.timer.inj hev2
            have htime : e.time = ex.start + cfg.delay := congrArg PEv.time he
            have hgd : getDone { s with pending := rest, now := e.time } ex.eid =
                ex.done := getDone_last hinv.eids hlastex
            simp only [handleEv]
            rw [heid, hgd, hdone, if_pos rfl]
            refine debScheduleNext_DInv cfg hd _ e.time ex rfl hrest_times
              hinv.eids hinv.freshB hinv.chain hB_starts hidleF ?_ hlastex
              (htime ▸ le_refl _) (le_trans hledur hnow_le)
            show internalsL rest = []
            rw [hIr, h1, h2]
            rfl
          · exfalso
            have hsing := append_cons_eq_singleton (hIs.symm.trans hint)
            have hev2 := congrArg PEv.ev hsing.2.1
            rw [hev] at hev2
            cases hev2
    · -- fn-completion event
      have hintl : isInternal e.ev = true := by rw [hev]; rfl
      have hIs : internals s = internalsL l1 ++ e :: internalsL l2 := by
        show internalsL s.pending = _
        rw [hl]
        exact internalsL_middle_internal l1 l2 e hintl
      rcases hinv.mode with ⟨_, _, hintE, _⟩ | ⟨hidleF, ex, hlastex, hcases⟩
      · rw [hintE] at hIs
        simp at hIs
      · rcases hcases with ⟨hdone, q1, q2, hint⟩ | ⟨hdone, q, hsub⟩
        · -- B1: the completion is the second of the pair
          have hsplit := append_cons_eq_pair (hIs.symm.trans hint)
          rcases hsplit with ⟨h1, he, h2⟩ | ⟨h1, he, h2⟩
          · exfalso
            have hev2 := congrArg PEv.ev he
            rw [hev] at hev2
            cases hev2
          · have heid : eid = ex.eid := by
              have hev2 := congrArg PEv.ev he
              rw [hev] at hev2
              exact DEv.complete.inj hev2
            have htime : e.time = ex.start + cfg.dur ex.args := congrArg PEv.time he
            have hgd : getDone { s with pending := rest, now := e.time } ex.eid =
                ex.done := getDone_last hinv.eids hlastex
            simp only [handleEv]
            rw [hd, if_neg (by simp), heid, hgd, hdone, if_neg (by simp)]
            refine setDone_DInv cfg _ ex e.time rfl hrest_times hinv.eids
              hinv.freshB hinv.chain hB_starts hidleF hlastex ?_
            left
            refine ⟨q1, ?_, htime ▸ le_refl _⟩
            show internalsL rest = _
            rw [hIr, h1, h2]
            rfl
        · rcases hsub with ⟨hint, hledur⟩ | ⟨hint, hledel⟩
          · exfalso
            have hsing := append_cons_eq_singleton (hIs.symm.trans hint)
            have hev2 := congrArg PEv.ev hsing.2.1
            rw [hev] at hev2
            cases hev2
          · -- the remaining event is the completion: fire and schedule next
            have hsing := append_cons_eq_singleton (hIs.symm.trans hint)
            obtain ⟨h1, he, h2⟩ := hsing
            have heid : eid = ex.eid := by
              have hev2 := congrArg PEv.ev he
              rw [hev] at hev2
              exact DEv.complete.inj hev2
            have htime : e.time = ex.start + cfg.dur ex.args := congrArg PEv.time he
            have hgd : getDone { s with pending := rest, now := e.time } ex.eid =
                ex.done := getDone_last hinv.eids hlastex
            simp only [handleEv]
            rw [hd, if_neg (by simp), heid, hgd, hdone, if_pos rfl]
            refine debScheduleNext_DInv cfg hd _ e.time ex rfl hrest_times
              hinv.eids hinv.freshB hinv.chain hB_starts hidleF ?_ hlastex
              (le_trans hledel hnow_le) (htime ▸ le_refl _)
            show internalsL rest = []
            rw [hIr, h1, h2]
            rfl

lemma DInv_runD {α : Type w} (cfg : DebCfg α) (hd : cfg.disregard = false)
    (fuel : Nat) (s : DState α) (hinv : DInv cfg s) :
    DInv cfg (runD cfg fuel s) := by
  induction fuel generalizing s with
  | zero => exact hinv
  | succ n ih =>
    rw [runD]
    rcases hstep : stepD cfg s with _ | s2
    · exact hinv
    · exact ih _ (DInv_step cfg hd hinv hstep)

lemma DInv_init {α : Type w} (cfg : DebCfg α) (invokes : List (Nat × α)) :
    DInv cfg (initD invokes) := by
  have hexecs : (initD invokes).execs = [] := rfl
  constructor
  · intro p _
    exact Nat.zero_le _
  · rw [hexecs]; exact List.chain'_nil
  · intro x hx; rw [hexecs] at hx; cases hx
  · rw [hexecs]; exact List.chain'_nil
  · intro x hx; rw [hexecs] at hx; cases hx
  · left
    refine ⟨rfl, rfl, ?_, ?_⟩
    · show List.filter (fun p => isInternal p.ev) (initD invokes).pending = []
      rw [List.filter_eq_nil_iff]
      intro p hp
      simp only [initD] at hp
      obtain ⟨q, _, rfl⟩ := List.mem_map.1 hp
      simp [isInternal]
    · intro x hx
      rw [hexecs] at hx
      cases hx

/-- Claim C6: in the default configuration, each execution of `fn` starts
only once both the interval timer set at the previous execution's start has
expired and the previous execution has completed. -/
theorem debounce_trailing_after_timer_and_completion {α : Type w}
    (cfg : DebCfg α) (invokes : List (Nat × α)) (fuel : Nat)
    (hd : cfg.disregard = false) (_hi : 0 < cfg.interval) :
    List.Chain' (execLe cfg) (runD cfg fuel (initD invokes)).execs :=
  (DInv_runD cfg hd fuel (initD invokes) (DInv_init cfg invokes)).chain

/-- Claim C6 witness: the theorem instantiated at a concrete run with a
positive interval, two calls, and a slow wrapped function. -/
theorem debounce_trailing_after_timer_and_completion_witness :
    debC6.disregard = false ∧ 0 < debC6.interval ∧
    List.Chain' (execLe debC6) (runD debC6 12 (initD [(0, 1), (1, 2)])).execs :=
  ⟨rfl, by decide,
    debounce_trailing_after_timer_and_completion debC6 [(0, 1), (1, 2)] 12 rfl
      (by decide)⟩

/-- Claim C5 evaluated at the failing input: with `interval = 0` (the
`interval ≤ 0` edge case), default `disregardExecutionTime`, a wrapped
function lasting 10 units and calls at times 0 and 1, the second call does
not start its own execution at time 1: it is queued and starts only at time
10, when the first execution completes — the wrapper still coalesces and
delays instead of degrading to a pass-through. -/
theorem debounce_zero_interval_still_coalesces :
    debC5.interval ≤ 0 ∧
    (runD debC5 20 (initD [(0, 1), (1, 2)])).execs.map
      (fun e => (e.start, e.args)) = [(0, 1), (10, 2)] := by
  exact ⟨by decide, by decide⟩
